import Mathlib

/-!
Verification of `versioning.py`, a minimal content-addressed dataset
version-control system (object store with deduplication, linear commit
chain, HEAD pointer, preprocessing pipeline).

Shallow embedding conventions:
* `hash` abstracts `hashlib.sha256(...).hexdigest()` as an arbitrary
  function `String → String`; collision-freedom claims take
  `Function.Injective hash` as a hypothesis (the "modulo hash collision"
  clause of the spec).
* The file system (objects directory, commits directory, HEAD file) is a
  `VState` record of association lists plus an optional head; a missing
  file is `none` (Python raises `FileNotFoundError`, modelled by
  `Option`/`Except`).
* `datetime.now()` is an explicit `timestamp` argument.
* Python text functions (`str.lower`, `re` classes `\w`/`\s`,
  `str.splitlines`) are modelled on their documented behaviour; the case
  and word-character tables are the ASCII tables (the Unicode tables
  restricted to ASCII, which is the range all concrete claims use).
* `json.dumps(commit_data, sort_keys=True)` is modelled by
  `dumpsCommit`, including CPython's `ensure_ascii` string escaping and
  the default `", "`/`": "` separators; configuration values are JSON
  booleans (the recognized options are boolean flags).
-/

/-! ## Configuration: a JSON object of boolean flags, as an association list -/

abbrev Config := List (String × Bool)

/-- `config.get(k)` truthiness: a missing key or a `false` value disables the
option. -/
def getOpt (config : Config) (k : String) : Bool :=
  match config.lookup k with
  | some b => b
  | none => false

/-! ## Preprocessing pipeline (`preprocess_text`) -/

/-- Python `str.lower` (ASCII table). -/
def lowerString (s : String) : String := ⟨s.data.map Char.toLower⟩

/-- Python regex class `\w` (ASCII table): alphanumeric or underscore. -/
def isWordChar (c : Char) : Bool := c.isAlphanum || c = '_'

/-- Python regex class `\s` (ASCII table): space, tab, newline, carriage
return, vertical tab, form feed. -/
def isSpaceChar (c : Char) : Bool :=
  c = ' ' || c = '\t' || c = '\n' || c = '\r' || c = '\x0b' || c = '\x0c'

/-- Python `re.sub(r"[^\w\s]", "", text)`: delete every character that is
neither a word character nor whitespace. -/
def removePunct (s : String) : String :=
  ⟨s.data.filter (fun c => isWordChar c || isSpaceChar c)⟩

/-- Line boundary characters of Python `str.splitlines` (`\r\n` is handled
as a single boundary by `splitlinesGo`). -/
def isLineBreak (c : Char) : Bool :=
  c = '\n' || c = '\r' || c = '\x0b' || c = '\x0c' ||
  c = '\x1c' || c = '\x1d' || c = '\x1e' || c = '\x85' ||
  c = '\u2028' || c = '\u2029'

/-- Worker for `splitlines`: `acc` is the current line, reversed. A trailing
boundary does not open a final empty line. -/
def splitlinesGo : List Char → List Char → List String
  | acc, [] => [⟨acc.reverse⟩]
  | acc, '\r' :: '\n' :: rest =>
    ⟨acc.reverse⟩ :: (if rest.isEmpty then [] else splitlinesGo [] rest)
  | acc, c :: rest =>
    if isLineBreak c then
      ⟨acc.reverse⟩ :: (if rest.isEmpty then [] else splitlinesGo [] rest)
    else
      splitlinesGo (c :: acc) rest

/-- Python `str.splitlines`. -/
def splitlines (s : String) : List String :=
  if s.data.isEmpty then [] else splitlinesGo [] s.data

/-- Worker for `dedupFirst`: keep a line unless already in `seen`. -/
def dedupKeep (seen : List String) : List String → List String
  | [] => []
  | x :: xs => if x ∈ seen then dedupKeep seen xs else x :: dedupKeep (x :: seen) xs

/-- Python `list(dict.fromkeys(lines))`: keep the first occurrence of each
distinct line, in first-occurrence order. -/
def dedupFirst (l : List String) : List String := dedupKeep [] l

/-- `preprocess_text(text, config)` from `versioning.py`. -/
def preprocess_text (text : String) (config : Config) : String :=
  let t1 := if getOpt config "lowercase" then lowerString text else text
  let t2 := if getOpt config "remove_punctuation" then removePunct t1 else t1
  let lines := splitlines t2
  let lines2 := if getOpt config "remove_duplicates" then dedupFirst lines else lines
  String.intercalate "\n" lines2

/-! ## Canonical commit serialization (`json.dumps(commit_data, sort_keys=True)`) -/

/-- Lower-case hexadecimal digit. -/
def hexDigit (n : Nat) : Char :=
  if n < 10 then Char.ofNat (48 + n) else Char.ofNat (87 + n)

/-- Four hex digits of `n % 65536`, most significant first. -/
def hex4 (n : Nat) : List Char :=
  [hexDigit (n / 4096 % 16), hexDigit (n / 256 % 16), hexDigit (n / 16 % 16), hexDigit (n % 16)]

/-- CPython `json` `ensure_ascii` escaping of one character. -/
def escapeChar (c : Char) : List Char :=
  if c = '\\' then ['\\', '\\']
  else if c = '"' then ['\\', '"']
  else if c = '\x08' then ['\\', 'b']
  else if c = '\x09' then ['\\', 't']
  else if c = '\x0a' then ['\\', 'n']
  else if c = '\x0c' then ['\\', 'f']
  else if c = '\x0d' then ['\\', 'r']
  else if 0x20 ≤ c.toNat ∧ c.toNat ≤ 0x7e then [c]
  else if c.toNat < 0x10000 then '\\' :: 'u' :: hex4 c.toNat
  else
    '\\' :: 'u' :: hex4 (0xd800 + (c.toNat - 0x10000) / 0x400) ++
      ('\\' :: 'u' :: hex4 (0xdc00 + (c.toNat - 0x10000) % 0x400))

/-- Escape a character sequence. -/
def jsonEscape (s : List Char) : List Char := (s.map escapeChar).flatten

/-- A JSON string literal, as characters. -/
def jsonStrL (s : List Char) : List Char := '"' :: jsonEscape s ++ ['"']

/-- A JSON boolean, as characters. -/
def boolChars : Bool → List Char
  | true => ['t', 'r', 'u', 'e']
  | false => ['f', 'a', 'l', 's', 'e']

/-- JSON for `parent`: `null` or a string. -/
def optChars : Option String → List Char
  | none => ['n', 'u', 'l', 'l']
  | some s => jsonStrL s.data

/-- Sort the configuration pairs by key (`sort_keys=True` inside the nested
`config` object). -/
def sortByKey (cfg : Config) : Config :=
  List.insertionSort (fun a b => a.1 ≤ b.1) cfg

/-- One `"key": value` member. -/
def pairChars (p : String × Bool) : List Char :=
  jsonStrL p.1.data ++ (':' :: ' ' :: boolChars p.2)

/-- The serialized `config` object, keys sorted. -/
def configChars (cfg : Config) : List Char :=
  '\x7b' :: List.intercalate [',', ' '] ((sortByKey cfg).map pairChars) ++ ['\x7d']

/-- A commit record: `object_hash`, `parent`, `timestamp`, `config`. -/
structure Commit where
  object_hash : String
  parent : Option String
  timestamp : String
  config : Config
deriving DecidableEq, Repr

/-- Characters of `json.dumps(commit_data, sort_keys=True)`: the four keys
sorted (`config` < `object_hash` < `parent` < `timestamp`). -/
def commitChars (c : Commit) : List Char :=
  "\x7b\"config\": ".data ++ configChars c.config ++
  ", \"object_hash\": ".data ++ jsonStrL c.object_hash.data ++
  ", \"parent\": ".data ++ optChars c.parent ++
  ", \"timestamp\": ".data ++ jsonStrL c.timestamp.data ++ ['\x7d']

/-- `json.dumps(commit_data, sort_keys=True)` as a `String`. -/
def dumpsCommit (c : Commit) : String := ⟨commitChars c⟩

/-! ## Persistent state: objects directory, commits directory, HEAD file -/

/-- The durable store: `objects` maps object hash to content, `commits` maps
commit id to its record, `head` is the HEAD file (absent = `none`). The
front of each association list is the most recent write. -/
structure VState where
  objects : List (String × String)
  commits : List (String × Commit)
  head : Option String
deriving DecidableEq, Repr

/-- The empty repository (fresh `dataset_repo` directory). -/
def initState : VState := ⟨[], [], none⟩

variable (hash : String → String)

/-- `hash_content(content)`; `hash` abstracts sha256-hexdigest. -/
def hash_content (content : String) : String := hash content

/-- `store_object(content)`: write under the content hash unless an object
with that hash already exists; return the hash either way. -/
def store_object (st : VState) (content : String) : String × VState :=
  let object_hash := hash_content hash content
  match st.objects.lookup object_hash with
  | some _ => (object_hash, st)
  | none => (object_hash, { st with objects := (object_hash, content) :: st.objects })

/-- `load_object(object_hash)`: `none` models the `FileNotFoundError`. -/
def load_object (st : VState) (object_hash : String) : Option String :=
  st.objects.lookup object_hash

/-- `get_head()`. -/
def get_head (st : VState) : Option String := st.head

/-- `update_head(commit_id)`. -/
def update_head (st : VState) (commit_id : String) : VState :=
  { st with head := some commit_id }

/-- `create_commit(object_hash, config, parent)`; `timestamp` stands for
`datetime.now().isoformat()`. The id is the hash of the canonical
serialization; the record is persisted only if that id is not taken. -/
def create_commit (st : VState) (object_hash : String) (config : Config)
    (parent : Option String) (timestamp : String) : String × VState :=
  let commit : Commit := ⟨object_hash, parent, timestamp, config⟩
  let commit_string := dumpsCommit commit
  let commit_id := hash_content hash commit_string
  match st.commits.lookup commit_id with
  | some _ => (commit_id, st)
  | none => (commit_id, { st with commits := (commit_id, commit) :: st.commits })

/-- `load_commit(commit_id)`: `none` models the `FileNotFoundError`. -/
def load_commit (st : VState) (commit_id : String) : Option Commit :=
  st.commits.lookup commit_id

/-- Result of `create_version`: the Python return value (`ret`), the state
after the call, and the lines written to stdout. -/
structure CreateResult where
  ret : Option String
  state : VState
  printed : List String
deriving DecidableEq, Repr

/-- `create_version(raw_file_path, config_file_path)` after the two input
files have been read into `raw_text` and `config`. The function body has no
`return` statement: it prints the new commit id and returns `None`. -/
def create_version (st : VState) (raw_text : String) (config : Config)
    (timestamp : String) : CreateResult :=
  let processed_text := preprocess_text raw_text config
  let r1 := store_object hash st processed_text
  let parent := get_head r1.2
  let r2 := create_commit hash r1.2 r1.1 config parent timestamp
  let st3 := update_head r2.2 r2.1
  { ret := none, state := st3, printed := ["New commit created:", r2.1] }

/-- Failure conditions surfaced by lookups. -/
inductive VError
  | notFound
deriving DecidableEq, Repr

/-- `checkout(commit_id, output_file)`: load the commit, load its object,
write the content to the destination. `dest` is the destination file's
content (`none` = absent); both lookups happen before the write, so a
failed lookup leaves `dest` untouched. -/
def checkout (st : VState) (commit_id : String) (dest : Option String) :
    Except VError Unit × Option String :=
  match load_commit st commit_id with
  | none => (Except.error VError.notFound, dest)
  | some commit =>
    match load_object st commit.object_hash with
    | none => (Except.error VError.notFound, dest)
    | some content => (Except.ok Unit.unit, some content)

/-- The sequence of commits visited by `show_log`'s `while commit_id:` loop,
with enough `fuel`; `none` is returned when the fuel runs out (the loop is
still running) or when `load_commit` fails. -/
def show_log_walk (st : VState) : Nat → Option String → Option (List (String × Commit))
  | _, none => some []
  | 0, some _ => none
  | fuel + 1, some cid =>
    match load_commit st cid with
    | none => none
    | some c =>
      match show_log_walk st fuel c.parent with
      | some l => some ((cid, c) :: l)
      | none => none

/-- States reachable from a fresh repository through the write path. -/
inductive Reaches : VState → Prop
  | init : Reaches initState
  | step (st : VState) (raw : String) (cfg : Config) (ts : String) :
      Reaches st → Reaches (create_version hash st raw cfg ts).state

/-! ## A decoder for the canonical serialization

The commit id is the hash of `dumpsCommit`. To reason about distinctness of
commit ids "modulo hash collision" we show that `dumpsCommit` itself is
lossless: a decoder recovers every field (and the sorted configuration)
from the serialized text. -/

/-- Value of a lower-case hexadecimal digit. -/
def hexVal (c : Char) : Option Nat :=
  if 48 ≤ c.toNat ∧ c.toNat ≤ 57 then some (c.toNat - 48)
  else if 97 ≤ c.toNat ∧ c.toNat ≤ 102 then some (c.toNat - 87)
  else none

/-- Read four hex digits. -/
def decodeU4 : List Char → Option (Nat × List Char)
  | a :: b :: c :: d :: rest =>
    match hexVal a, hexVal b, hexVal c, hexVal d with
    | some va, some vb, some vc, some vd =>
      some (va * 4096 + vb * 256 + vc * 16 + vd, rest)
    | _, _, _, _ => none
  | _ => none

/-- Decode what follows a `\u` introducer: four hex digits, possibly a
surrogate pair. -/
def parseU (l : List Char) : Option (Char × List Char) :=
  match decodeU4 l with
  | none => none
  | some (n, r3) =>
    if n < 0xd800 then some (Char.ofNat n, r3)
    else if n < 0xdc00 then
      match r3 with
      | b1 :: u2 :: r4 =>
        if b1 = '\\' ∧ u2 = 'u' then
          match decodeU4 r4 with
          | none => none
          | some (m, r5) =>
            if 0xdc00 ≤ m ∧ m < 0xe000 then
              some (Char.ofNat (0x10000 + (n - 0xd800) * 0x400 + (m - 0xdc00)), r5)
            else none
        else none
      | _ => none
    else if n < 0xe000 then none
    else some (Char.ofNat n, r3)

/-- Read the body of a JSON string literal up to its closing quote, undoing
`escapeChar`; returns the decoded characters and the remaining input. -/
def parseStringBody : Nat → List Char → Option (List Char × List Char)
  | 0, _ => none
  | _ + 1, [] => none
  | fuel + 1, c :: rest =>
    if c = '"' then some ([], rest)
    else if c = '\\' then
      match rest with
      | [] => none
      | e :: r2 =>
        if e = '\\' then
          (parseStringBody fuel r2).map (fun p => ('\\' :: p.1, p.2))
        else if e = '"' then
          (parseStringBody fuel r2).map (fun p => ('"' :: p.1, p.2))
        else if e = 'b' then
          (parseStringBody fuel r2).map (fun p => ('\x08' :: p.1, p.2))
        else if e = 't' then
          (parseStringBody fuel r2).map (fun p => ('\x09' :: p.1, p.2))
        else if e = 'n' then
          (parseStringBody fuel r2).map (fun p => ('\x0a' :: p.1, p.2))
        else if e = 'f' then
          (parseStringBody fuel r2).map (fun p => ('\x0c' :: p.1, p.2))
        else if e = 'r' then
          (parseStringBody fuel r2).map (fun p => ('\x0d' :: p.1, p.2))
        else if e = 'u' then
          match parseU r2 with
          | none => none
          | some (ch, r3) =>
            (parseStringBody fuel r3).map (fun p => (ch :: p.1, p.2))
        else none
    else (parseStringBody fuel rest).map (fun p => (c :: p.1, p.2))

/-- Read a JSON string literal (opening quote included); the fuel for the
body is taken from the input length. -/
def parseJStringTop (l : List Char) : Option (List Char × List Char) :=
  match l with
  | [] => none
  | c :: rest => if c = '"' then parseStringBody (rest.length + 1) rest else none

/-- Read a JSON boolean. -/
def parseBool : List Char → Option (Bool × List Char)
  | 't' :: 'r' :: 'u' :: 'e' :: rest => some (true, rest)
  | 'f' :: 'a' :: 'l' :: 's' :: 'e' :: rest => some (false, rest)
  | _ => none

/-- Read `null` or a JSON string. -/
def parseOptStr (l : List Char) : Option (Option String × List Char) :=
  match l with
  | 'n' :: 'u' :: 'l' :: 'l' :: rest => some (none, rest)
  | _ => (parseJStringTop l).map (fun p => (some ⟨p.1⟩, p.2))

/-- Read the members of a non-empty config object and the closing brace. -/
def parsePairsLoop : Nat → List Char → Option (Config × List Char)
  | 0, _ => none
  | fuel + 1, l =>
    match parseJStringTop l with
    | none => none
    | some (k, r1) =>
      match r1 with
      | ':' :: ' ' :: r2 =>
        match parseBool r2 with
        | none => none
        | some (v, r3) =>
          match r3 with
          | '\x7d' :: rest => some ([(⟨k⟩, v)], rest)
          | ',' :: ' ' :: rest =>
            match parsePairsLoop fuel rest with
            | some (ps, rest2) => some ((⟨k⟩, v) :: ps, rest2)
            | none => none
          | _ => none
      | _ => none

/-- Read a serialized config object. -/
def parseConfigChars : List Char → Option (Config × List Char)
  | '\x7b' :: '\x7d' :: rest => some ([], rest)
  | '\x7b' :: rest => parsePairsLoop rest.length rest
  | _ => none

/-- Strip an expected literal prefix. -/
def stripPre : List Char → List Char → Option (List Char)
  | [], l => some l
  | _ :: _, [] => none
  | p :: ps, c :: cs => if c = p then stripPre ps cs else none

/-- Decode `dumpsCommit` output: recover the sorted config and the three
string fields. -/
def parseCommitChars (l : List Char) :
    Option (Config × String × Option String × String × List Char) :=
  match stripPre "\x7b\"config\": ".data l with
  | none => none
  | some l1 =>
    match parseConfigChars l1 with
    | none => none
    | some (cfg, l2) =>
      match stripPre ", \"object_hash\": ".data l2 with
      | none => none
      | some l3 =>
        match parseJStringTop l3 with
        | none => none
        | some (h, l4) =>
          match stripPre ", \"parent\": ".data l4 with
          | none => none
          | some l5 =>
            match parseOptStr l5 with
            | none => none
            | some (p, l6) =>
              match stripPre ", \"timestamp\": ".data l6 with
              | none => none
              | some l7 =>
                match parseJStringTop l7 with
                | none => none
                | some (ts, l8) =>
                  match l8 with
                  | '\x7d' :: rest => some (cfg, ⟨h⟩, p, ⟨ts⟩, rest)
                  | _ => none

/-! ## Invariants of reachable states, and the spec-side transform -/

/-- Object-store consistency: every stored object sits under the hash of its
content. -/
def StoreOk (st : VState) : Prop :=
  ∀ h c, st.objects.lookup h = some c → h = hash_content hash c

/-- Commit-store consistency: every stored commit sits under the hash of its
canonical serialization. -/
def CommitsOk (st : VState) : Prop :=
  ∀ id c, st.commits.lookup id = some c → id = hash_content hash (dumpsCommit c)

/-- Commit ids in the store are pairwise distinct (`create_commit` only
writes under ids that are free). -/
def NodupKeys (st : VState) : Prop := (st.commits.map Prod.fst).Nodup

/-- Every commit's parent, when present, is a strictly older stored commit:
the list is newest-first. -/
def ParentsOlder : List (String × Commit) → Prop
  | [] => True
  | (_, c) :: rest => (∀ p, c.parent = some p → p ∈ rest.map Prod.fst) ∧ ParentsOlder rest

/-- HEAD, when present, references a stored commit. -/
def HeadOk (st : VState) : Prop :=
  ∀ h, st.head = some h → h ∈ st.commits.map Prod.fst

/-- `ChainFrom o l`: `l` is the sequence of commits visited by starting at
`o` and following `parent` links, ending at a commit with no parent. -/
def ChainFrom : Option String → List (String × Commit) → Prop
  | o, [] => o = none
  | o, (cid, c) :: rest => o = some cid ∧ ChainFrom c.parent rest

/-- Spec-side transform for claim C6, built from the spec text: (1) case-fold
the entire text if `lowercase`; (2) strip every character that is neither a
word character nor whitespace if `remove_punctuation`, then split into
lines; (3) if `remove_duplicates`, keep only the first occurrence of each
distinct line, preserving first-occurrence order; rejoin with a single
newline. A missing key disables its option. -/
def transform_spec (text : String) (config : Config) : String :=
  let t1 := if getOpt config "lowercase" then ⟨text.data.map Char.toLower⟩ else text
  let t2 := if getOpt config "remove_punctuation" then
      ⟨t1.data.filter (fun c => !(!isWordChar c && !isSpaceChar c))⟩ else t1
  let lines := splitlines t2
  let lines2 := if getOpt config "remove_duplicates" then
      lines.foldl (fun acc x => if x ∈ acc then acc else acc ++ [x]) [] else lines
  String.intercalate "\n" lines2

/-! ## Round-trip: the decoder inverts `dumpsCommit` -/
lemma char_toNat_valid (c : Char) :
    c.toNat < 0xd800 ∨ (0xdfff < c.toNat ∧ c.toNat < 0x110000) := c.valid

lemma hexVal_hexDigit (k : Nat) (h : k < 16) : hexVal (hexDigit k) = some k := by
  interval_cases k <;> decide

lemma decodeU4_hex4 (n : Nat) (r : List Char) (h : n < 65536) :
    decodeU4 (hex4 n ++ r) = some (n, r) := by
  have h1 : n / 4096 % 16 < 16 := Nat.mod_lt _ (by norm_num)
  have h2 : n / 256 % 16 < 16 := Nat.mod_lt _ (by norm_num)
  have h3 : n / 16 % 16 < 16 := Nat.mod_lt _ (by norm_num)
  have h4 : n % 16 < 16 := Nat.mod_lt _ (by norm_num)
  simp only [hex4, List.cons_append, List.nil_append, decodeU4,
    hexVal_hexDigit _ h1, hexVal_hexDigit _ h2, hexVal_hexDigit _ h3, hexVal_hexDigit _ h4]
  congr 1
  congr 1
  omega

lemma parseU_bmp (c : Char) (r : List Char) (h : c.toNat < 65536) :
    parseU (hex4 c.toNat ++ r) = some (c, r) := by
  rcases char_toNat_valid c with hv | hv
  · simp only [parseU, decodeU4_hex4 _ _ h, if_pos hv, Char.ofNat_toNat]
  · simp only [parseU, decodeU4_hex4 _ _ h]
    rw [if_neg (by omega), if_neg (by omega), if_neg (by omega), Char.ofNat_toNat]


lemma parseU_pair (l : List Char) (n m : Nat) (r4 r5 : List Char)
    (hd : decodeU4 l = some (n, '\\' :: 'u' :: r4))
    (hd2 : decodeU4 r4 = some (m, r5))
    (hn1 : ¬ n < 55296) (hn2 : n < 56320) (hm : 56320 ≤ m ∧ m < 57344) :
    parseU l = some (Char.ofNat (65536 + (n - 55296) * 1024 + (m - 56320)), r5) := by
  simp only [parseU, hd]
  rw [if_neg hn1, if_pos hn2]
  rw [if_pos ⟨trivial, trivial⟩]
  simp only [hd2]
  rw [if_pos hm]

lemma parseU_astral (c : Char) (r : List Char) (h : ¬ c.toNat < 65536) :
    parseU (hex4 (0xd800 + (c.toNat - 0x10000) / 0x400) ++
      ('\\' :: 'u' :: (hex4 (0xdc00 + (c.toNat - 0x10000) % 0x400) ++ r))) = some (c, r) := by
  have hv : 0xdfff < c.toNat ∧ c.toNat < 0x110000 := by
    rcases char_toNat_valid c with hv | hv
    · omega
    · exact hv
  have e1 : decodeU4 (hex4 (0xd800 + (c.toNat - 0x10000) / 0x400) ++
      ('\\' :: 'u' :: (hex4 (0xdc00 + (c.toNat - 0x10000) % 0x400) ++ r))) =
      some (0xd800 + (c.toNat - 0x10000) / 0x400,
        '\\' :: 'u' :: (hex4 (0xdc00 + (c.toNat - 0x10000) % 0x400) ++ r)) :=
    decodeU4_hex4 _ _ (by omega)
  have e2 : decodeU4 (hex4 (0xdc00 + (c.toNat - 0x10000) % 0x400) ++ r) =
      some (0xdc00 + (c.toNat - 0x10000) % 0x400, r) :=
    decodeU4_hex4 _ _ (by omega)
  have main := parseU_pair _ _ _ _ _ e1 e2 (by omega) (by omega) ⟨by omega, by omega⟩
  rw [main]
  have harith : 65536 + (0xd800 + (c.toNat - 0x10000) / 0x400 - 55296) * 1024 +
      (0xdc00 + (c.toNat - 0x10000) % 0x400 - 56320) = c.toNat := by omega
  rw [harith, Char.ofNat_toNat]

lemma parseStringBody_u (fuel : Nat) (tail : List Char) (ch : Char) (r3 : List Char)
    (h : parseU tail = some (ch, r3)) :
    parseStringBody (fuel + 1) ('\\' :: 'u' :: tail) =
      (parseStringBody fuel r3).map (fun p => (ch :: p.1, p.2)) := by
  have e : parseStringBody (fuel + 1) ('\\' :: 'u' :: tail) =
      match parseU tail with
      | none => none
      | some (ch, r3) => (parseStringBody fuel r3).map (fun p => (ch :: p.1, p.2)) := rfl
  rw [e, h]

lemma parseStringBody_escapeChar (c : Char) (fuel : Nat) (r : List Char) :
    parseStringBody (fuel + 1) (escapeChar c ++ r) =
      (parseStringBody fuel r).map (fun p => (c :: p.1, p.2)) := by
  by_cases h1 : c = '\\'
  · subst h1; rfl
  by_cases h2 : c = '"'
  · subst h2; rfl
  by_cases h3 : c = '\x08'
  · subst h3; rfl
  by_cases h4 : c = '\x09'
  · subst h4; rfl
  by_cases h5 : c = '\x0a'
  · subst h5; rfl
  by_cases h6 : c = '\x0c'
  · subst h6; rfl
  by_cases h7 : c = '\x0d'
  · subst h7; rfl
  by_cases hpr : 0x20 ≤ c.toNat ∧ c.toNat ≤ 0x7e
  · have he : escapeChar c = [c] := by
      simp only [escapeChar]
      rw [if_neg h1, if_neg h2, if_neg h3, if_neg h4, if_neg h5, if_neg h6, if_neg h7,
        if_pos hpr]
    rw [he, List.singleton_append]
    simp only [parseStringBody]
    rw [if_neg h2, if_neg h1]
  · by_cases hbmp : c.toNat < 65536
    · have he : escapeChar c = '\\' :: 'u' :: hex4 c.toNat := by
        simp only [escapeChar]
        rw [if_neg h1, if_neg h2, if_neg h3, if_neg h4, if_neg h5, if_neg h6, if_neg h7,
          if_neg hpr, if_pos hbmp]
      rw [he, List.cons_append, List.cons_append]
      exact parseStringBody_u fuel _ c r (parseU_bmp c r hbmp)
    · have he : escapeChar c = '\\' :: 'u' ::
          (hex4 (0xd800 + (c.toNat - 0x10000) / 0x400) ++
            ('\\' :: 'u' :: hex4 (0xdc00 + (c.toNat - 0x10000) % 0x400))) := by
        simp only [escapeChar]
        rw [if_neg h1, if_neg h2, if_neg h3, if_neg h4, if_neg h5, if_neg h6, if_neg h7,
          if_neg hpr, if_neg hbmp]
        simp [List.cons_append]
      rw [he, List.cons_append, List.cons_append, List.append_assoc, List.cons_append,
        List.cons_append]
      exact parseStringBody_u fuel _ c r (parseU_astral c r hbmp)

lemma parseStringBody_escape (s : List Char) : ∀ (fuel : Nat) (r : List Char),
    s.length < fuel →
    parseStringBody fuel (jsonEscape s ++ ('"' :: r)) = some (s, r) := by
  induction s with
  | nil =>
    intro fuel r hf
    match fuel, hf with
    | fuel + 1, _ => rfl
  | cons c s ih =>
    intro fuel r hf
    match fuel, hf with
    | fuel + 1, hf =>
      have : jsonEscape (c :: s) ++ ('"' :: r) = escapeChar c ++ (jsonEscape s ++ ('"' :: r)) := by
        simp [jsonEscape, List.append_assoc]
      rw [this, parseStringBody_escapeChar c fuel _, ih fuel r (by simpa using Nat.lt_of_succ_lt_succ hf)]
      rfl

lemma escapeChar_length_pos (c : Char) : 0 < (escapeChar c).length := by
  unfold escapeChar
  split_ifs <;> simp [hex4]

lemma jsonEscape_length (s : List Char) : s.length ≤ (jsonEscape s).length := by
  induction s with
  | nil => simp [jsonEscape]
  | cons c s ih =>
    have := escapeChar_length_pos c
    simp only [jsonEscape, List.map_cons, List.flatten_cons, List.length_append,
      List.length_cons]
    simp only [jsonEscape] at ih
    omega

lemma parseJStringTop_jsonStrL (s r : List Char) :
    parseJStringTop (jsonStrL s ++ r) = some (s, r) := by
  have e : jsonStrL s ++ r = '"' :: (jsonEscape s ++ ('"' :: r)) := by
    simp [jsonStrL]
  rw [e]
  have e2 : parseJStringTop ('"' :: (jsonEscape s ++ ('"' :: r))) =
      parseStringBody ((jsonEscape s ++ ('"' :: r)).length + 1)
        (jsonEscape s ++ ('"' :: r)) := rfl
  rw [e2]
  apply parseStringBody_escape
  have := jsonEscape_length s
  simp only [List.length_append, List.length_cons]
  omega

lemma parseBool_boolChars (v : Bool) (r : List Char) :
    parseBool (boolChars v ++ r) = some (v, r) := by
  cases v <;> rfl

lemma parseOptStr_optChars (p : Option String) (r : List Char) :
    parseOptStr (optChars p ++ r) = some (p, r) := by
  cases p with
  | none => rfl
  | some s =>
    have e : optChars (some s) ++ r = '"' :: (jsonEscape s.data ++ ('"' :: r)) := by
      simp [optChars, jsonStrL]
    rw [e]
    have e2 : parseOptStr ('"' :: (jsonEscape s.data ++ ('"' :: r))) =
        (parseJStringTop ('"' :: (jsonEscape s.data ++ ('"' :: r)))).map
          (fun p => (some ⟨p.1⟩, p.2)) := rfl
    rw [e2]
    have e3 : ('"' : Char) :: (jsonEscape s.data ++ ('"' :: r)) = jsonStrL s.data ++ r := by
      simp [jsonStrL]
    rw [e3, parseJStringTop_jsonStrL]
    rfl

lemma intercalate_singleton (sep a : List Char) : List.intercalate sep [a] = a := by
  simp [List.intercalate, List.intersperse]

lemma intercalate_cons2 (sep a b : List Char) (l : List (List Char)) :
    List.intercalate sep (a :: b :: l) = a ++ sep ++ List.intercalate sep (b :: l) := by
  simp [List.intercalate, List.intersperse]

lemma parsePairsLoop_round (ps : Config) (r : List Char) :
    ps ≠ [] → ∀ fuel, ps.length ≤ fuel →
    parsePairsLoop fuel (List.intercalate [',', ' '] (ps.map pairChars) ++ ('\x7d' :: r)) =
      some (ps, r) := by
  induction ps with
  | nil => intro h; exact absurd rfl h
  | cons kv ps ih =>
    intro _ fuel hf
    obtain ⟨k, v⟩ := kv
    match fuel, hf with
    | fuel + 1, hf =>
      cases ps with
      | nil =>
        rw [List.map_cons, List.map_nil, intercalate_singleton]
        have e : pairChars (k, v) ++ ('\x7d' :: r) =
            jsonStrL k.data ++ (':' :: ' ' :: (boolChars v ++ ('\x7d' :: r))) := by
          simp [pairChars]
        rw [e]
        simp only [parsePairsLoop, parseJStringTop_jsonStrL, parseBool_boolChars]
      | cons kv2 ps2 =>
        rw [List.map_cons, List.map_cons, intercalate_cons2]
        have e : pairChars (k, v) ++ [',', ' '] ++
            List.intercalate [',', ' '] (pairChars kv2 :: ps2.map pairChars) ++ ('\x7d' :: r) =
            jsonStrL k.data ++ (':' :: ' ' :: (boolChars v ++ (',' :: ' ' ::
              (List.intercalate [',', ' '] (pairChars kv2 :: ps2.map pairChars) ++
                ('\x7d' :: r))))) := by
          simp [pairChars]
        rw [e]
        have hrec := ih (by simp) fuel (by simp at hf ⊢; omega)
        rw [List.map_cons] at hrec
        simp only [parsePairsLoop, parseJStringTop_jsonStrL, parseBool_boolChars, hrec]

lemma pairChars_length_pos (p : String × Bool) : 0 < (pairChars p).length := by
  simp [pairChars, jsonStrL]

lemma intercalate_pairs_length (ps : Config) :
    ps.length ≤ (List.intercalate [',', ' '] (ps.map pairChars)).length := by
  induction ps with
  | nil => simp
  | cons p ps ih =>
    cases ps with
    | nil =>
      have := pairChars_length_pos p
      simp [intercalate_singleton]
      omega
    | cons q ps2 =>
      rw [List.map_cons, List.map_cons, intercalate_cons2]
      rw [List.map_cons] at ih
      have := pairChars_length_pos p
      simp only [List.length_append, List.length_cons] at *
      omega

lemma jsonStrL_head_cons (s : List Char) : jsonStrL s = '"' :: (jsonEscape s ++ ['"']) := rfl

lemma parseConfig_round (ps : Config) (r : List Char) :
    parseConfigChars (('\x7b' :: List.intercalate [',', ' '] (ps.map pairChars)) ++
      ('\x7d' :: r)) = some (ps, r) := by
  cases ps with
  | nil => rfl
  | cons kv ps2 =>
    obtain ⟨k, v⟩ := kv
    have hhead : ∃ tail, List.intercalate [',', ' '] (((k, v) :: ps2).map pairChars) =
        '"' :: tail := by
      cases ps2 with
      | nil =>
        refine ⟨jsonEscape k.data ++ ['"'] ++ (':' :: ' ' :: boolChars v), ?_⟩
        simp [intercalate_singleton, pairChars, jsonStrL_head_cons]
      | cons q ps3 =>
        rw [List.map_cons, List.map_cons, intercalate_cons2]
        refine ⟨jsonEscape k.data ++ ['"'] ++ (':' :: ' ' :: boolChars v) ++ [',', ' '] ++
          List.intercalate [',', ' '] (pairChars q :: ps3.map pairChars), ?_⟩
        simp [pairChars, jsonStrL_head_cons]
    obtain ⟨tail, htail⟩ := hhead
    have hlen := intercalate_pairs_length ((k, v) :: ps2)
    have e : ('\x7b' :: List.intercalate [',', ' '] (((k, v) :: ps2).map pairChars)) ++
        ('\x7d' :: r) = '\x7b' :: '"' :: (tail ++ ('\x7d' :: r)) := by
      rw [htail]; simp
    rw [e]
    have e2 : parseConfigChars ('\x7b' :: '"' :: (tail ++ ('\x7d' :: r))) =
        parsePairsLoop ('"' :: (tail ++ ('\x7d' :: r))).length
          ('"' :: (tail ++ ('\x7d' :: r))) := rfl
    rw [e2]
    have e3 : ('"' : Char) :: (tail ++ ('\x7d' :: r)) =
        List.intercalate [',', ' '] (((k, v) :: ps2).map pairChars) ++ ('\x7d' :: r) := by
      rw [htail]; simp
    rw [e3]
    apply parsePairsLoop_round _ _ (by simp)
    rw [← e3]
    simp only [List.length_cons, List.length_append]
    rw [htail] at hlen
    simp only [List.length_cons] at hlen ⊢
    omega

lemma stripPre_append (p r : List Char) : stripPre p (p ++ r) = some r := by
  induction p with
  | nil => rfl
  | cons c ps ih => simp [stripPre, ih]

theorem parseCommit_dumps (c : Commit) (r : List Char) :
    parseCommitChars (commitChars c ++ r) =
      some (sortByKey c.config, c.object_hash, c.parent, c.timestamp, r) := by
  have e : commitChars c ++ r =
      "\x7b\"config\": ".data ++
        ((('\x7b' :: List.intercalate [',', ' '] ((sortByKey c.config).map pairChars)) ++
          ('\x7d' :: (", \"object_hash\": ".data ++
            (jsonStrL c.object_hash.data ++
              (", \"parent\": ".data ++
                (optChars c.parent ++
                  (", \"timestamp\": ".data ++
                    (jsonStrL c.timestamp.data ++ ('\x7d' :: r)))))))))) := by
    simp [commitChars, configChars, List.append_assoc]
  rw [e]
  simp only [parseCommitChars, stripPre_append, parseConfig_round, parseJStringTop_jsonStrL,
    parseOptStr_optChars]

/-! ## Operational lemmas and invariant preservation -/
lemma lookup_cons_self {β : Type} (k : String) (v : β) (l : List (String × β)) :
    List.lookup k ((k, v) :: l) = some v := by
  simp [List.lookup]

lemma lookup_cons_ne {β : Type} (k k' : String) (v : β) (l : List (String × β))
    (h : k ≠ k') : List.lookup k ((k', v) :: l) = List.lookup k l := by
  rw [List.lookup]
  rw [beq_eq_false_iff_ne.mpr h]

lemma lookup_isSome_iff {β : Type} (k : String) (l : List (String × β)) :
    (l.lookup k).isSome ↔ k ∈ l.map Prod.fst := by
  induction l with
  | nil => simp
  | cons p l ih =>
    obtain ⟨k', v⟩ := p
    by_cases h : k = k'
    · subst h; simp [lookup_cons_self]
    · rw [lookup_cons_ne _ _ _ _ h]
      simp [ih, h]

lemma lookup_eq_none_iff {β : Type} (k : String) (l : List (String × β)) :
    l.lookup k = none ↔ k ∉ l.map Prod.fst := by
  rw [← lookup_isSome_iff]
  cases l.lookup k <;> simp

lemma store_object_eq_of_some (st : VState) (content c0 : String)
    (h : st.objects.lookup (hash_content hash content) = some c0) :
    store_object hash st content = (hash_content hash content, st) := by
  simp only [store_object]
  rw [h]

lemma store_object_eq_of_none (st : VState) (content : String)
    (h : st.objects.lookup (hash_content hash content) = none) :
    store_object hash st content =
      (hash_content hash content,
        { st with objects := (hash_content hash content, content) :: st.objects }) := by
  simp only [store_object]
  rw [h]

lemma store_object_fst (st : VState) (content : String) :
    (store_object hash st content).1 = hash_content hash content := by
  cases h : st.objects.lookup (hash_content hash content) with
  | some c0 => rw [store_object_eq_of_some hash st content c0 h]
  | none => rw [store_object_eq_of_none hash st content h]

lemma store_object_commits (st : VState) (content : String) :
    (store_object hash st content).2.commits = st.commits := by
  cases h : st.objects.lookup (hash_content hash content) with
  | some c0 => rw [store_object_eq_of_some hash st content c0 h]
  | none => rw [store_object_eq_of_none hash st content h]

lemma store_object_head (st : VState) (content : String) :
    (store_object hash st content).2.head = st.head := by
  cases h : st.objects.lookup (hash_content hash content) with
  | some c0 => rw [store_object_eq_of_some hash st content c0 h]
  | none => rw [store_object_eq_of_none hash st content h]

lemma store_object_lookup_self (st : VState) (content : String)
    (hinj : Function.Injective hash) (hso : StoreOk hash st) :
    (store_object hash st content).2.objects.lookup (hash_content hash content) =
      some content := by
  cases hl : st.objects.lookup (hash_content hash content) with
  | some c0 =>
    rw [store_object_eq_of_some hash st content c0 hl]
    have he : hash_content hash content = hash_content hash c0 := hso _ _ hl
    have : content = c0 := hinj he
    rw [hl, this]
  | none =>
    rw [store_object_eq_of_none hash st content hl]
    exact lookup_cons_self _ _ _

lemma StoreOk_store (st : VState) (content : String) (hso : StoreOk hash st) :
    StoreOk hash (store_object hash st content).2 := by
  cases hl : st.objects.lookup (hash_content hash content) with
  | some c0 => rw [store_object_eq_of_some hash st content c0 hl]; exact hso
  | none =>
    rw [store_object_eq_of_none hash st content hl]
    intro h c hlc
    by_cases he : h = hash_content hash content
    · subst he
      rw [lookup_cons_self] at hlc
      cases hlc
      rfl
    · rw [lookup_cons_ne _ _ _ _ he] at hlc
      exact hso _ _ hlc

lemma create_commit_eq_of_some (st : VState) (oh : String) (cfg : Config)
    (p : Option String) (ts : String) (c0 : Commit)
    (h : st.commits.lookup (hash_content hash (dumpsCommit ⟨oh, p, ts, cfg⟩)) = some c0) :
    create_commit hash st oh cfg p ts =
      (hash_content hash (dumpsCommit ⟨oh, p, ts, cfg⟩), st) := by
  simp only [create_commit]
  rw [h]

lemma create_commit_eq_of_none (st : VState) (oh : String) (cfg : Config)
    (p : Option String) (ts : String)
    (h : st.commits.lookup (hash_content hash (dumpsCommit ⟨oh, p, ts, cfg⟩)) = none) :
    create_commit hash st oh cfg p ts =
      (hash_content hash (dumpsCommit ⟨oh, p, ts, cfg⟩),
        { st with commits :=
            (hash_content hash (dumpsCommit ⟨oh, p, ts, cfg⟩), ⟨oh, p, ts, cfg⟩) ::
              st.commits }) := by
  simp only [create_commit]
  rw [h]

lemma create_commit_fst (st : VState) (oh : String) (cfg : Config)
    (p : Option String) (ts : String) :
    (create_commit hash st oh cfg p ts).1 =
      hash_content hash (dumpsCommit ⟨oh, p, ts, cfg⟩) := by
  cases h : st.commits.lookup (hash_content hash (dumpsCommit ⟨oh, p, ts, cfg⟩)) with
  | some c0 => rw [create_commit_eq_of_some hash st oh cfg p ts c0 h]
  | none => rw [create_commit_eq_of_none hash st oh cfg p ts h]

lemma create_commit_objects (st : VState) (oh : String) (cfg : Config)
    (p : Option String) (ts : String) :
    (create_commit hash st oh cfg p ts).2.objects = st.objects := by
  cases h : st.commits.lookup (hash_content hash (dumpsCommit ⟨oh, p, ts, cfg⟩)) with
  | some c0 => rw [create_commit_eq_of_some hash st oh cfg p ts c0 h]
  | none => rw [create_commit_eq_of_none hash st oh cfg p ts h]

lemma create_commit_head (st : VState) (oh : String) (cfg : Config)
    (p : Option String) (ts : String) :
    (create_commit hash st oh cfg p ts).2.head = st.head := by
  cases h : st.commits.lookup (hash_content hash (dumpsCommit ⟨oh, p, ts, cfg⟩)) with
  | some c0 => rw [create_commit_eq_of_some hash st oh cfg p ts c0 h]
  | none => rw [create_commit_eq_of_none hash st oh cfg p ts h]

/-- `dumpsCommit` is lossless: equal serializations force equal fields (the
configuration up to its canonical key-sorted form). -/
lemma dumpsCommit_fields {c1 c2 : Commit} (h : dumpsCommit c1 = dumpsCommit c2) :
    c1.object_hash = c2.object_hash ∧ c1.parent = c2.parent ∧
      c1.timestamp = c2.timestamp ∧ sortByKey c1.config = sortByKey c2.config := by
  have hc : commitChars c1 = commitChars c2 := congrArg String.data h
  have h1 := parseCommit_dumps c1 []
  have h2 := parseCommit_dumps c2 []
  rw [List.append_nil] at h1 h2
  rw [hc, h2] at h1
  simp only [Option.some.injEq, Prod.mk.injEq] at h1
  exact ⟨h1.2.1.symm, h1.2.2.1.symm, h1.2.2.2.1.symm, h1.1.symm⟩

/-- What the store holds at the id returned by `create_commit`: either the
new record, or (when that id was already taken) a record with the same hash
of its serialization. Under an injective hash the stored record has the
same object reference, parent and timestamp as the requested one. -/
lemma create_commit_lookup_fields (st : VState) (oh : String) (cfg : Config)
    (p : Option String) (ts : String)
    (hinj : Function.Injective hash) (hco : CommitsOk hash st) :
    ∃ c', (create_commit hash st oh cfg p ts).2.commits.lookup
        (create_commit hash st oh cfg p ts).1 = some c' ∧
      c'.object_hash = oh ∧ c'.parent = p ∧ c'.timestamp = ts ∧
      sortByKey c'.config = sortByKey cfg := by
  cases h : st.commits.lookup (hash_content hash (dumpsCommit ⟨oh, p, ts, cfg⟩)) with
  | some c0 =>
    rw [create_commit_eq_of_some hash st oh cfg p ts c0 h]
    refine ⟨c0, h, ?_⟩
    have he : hash_content hash (dumpsCommit ⟨oh, p, ts, cfg⟩) =
        hash_content hash (dumpsCommit c0) := hco _ _ h
    have hd : dumpsCommit (⟨oh, p, ts, cfg⟩ : Commit) = dumpsCommit c0 := hinj he
    have hf := dumpsCommit_fields hd
    exact ⟨hf.1.symm, hf.2.1.symm, hf.2.2.1.symm, hf.2.2.2.symm⟩
  | none =>
    rw [create_commit_eq_of_none hash st oh cfg p ts h]
    exact ⟨⟨oh, p, ts, cfg⟩, lookup_cons_self _ _ _, rfl, rfl, rfl, rfl⟩

lemma CommitsOk_store_object (st : VState) (content : String)
    (hco : CommitsOk hash st) : CommitsOk hash (store_object hash st content).2 := by
  intro id c h
  rw [store_object_commits] at h
  exact hco _ _ h

lemma StoreOk_create_commit (st : VState) (oh : String) (cfg : Config)
    (p : Option String) (ts : String) (hso : StoreOk hash st) :
    StoreOk hash (create_commit hash st oh cfg p ts).2 := by
  intro h c hl
  rw [create_commit_objects] at hl
  exact hso _ _ hl

lemma CommitsOk_create_commit (st : VState) (oh : String) (cfg : Config)
    (p : Option String) (ts : String) (hco : CommitsOk hash st) :
    CommitsOk hash (create_commit hash st oh cfg p ts).2 := by
  cases h : st.commits.lookup (hash_content hash (dumpsCommit ⟨oh, p, ts, cfg⟩)) with
  | some c0 => rw [create_commit_eq_of_some hash st oh cfg p ts c0 h]; exact hco
  | none =>
    rw [create_commit_eq_of_none hash st oh cfg p ts h]
    intro id c hl
    by_cases he : id = hash_content hash (dumpsCommit ⟨oh, p, ts, cfg⟩)
    · subst he
      rw [lookup_cons_self] at hl
      cases hl
      rfl
    · rw [lookup_cons_ne _ _ _ _ he] at hl
      exact hco _ _ hl

lemma create_version_state (st : VState) (raw : String) (cfg : Config) (ts : String) :
    (create_version hash st raw cfg ts).state =
      update_head
        (create_commit hash (store_object hash st (preprocess_text raw cfg)).2
          (store_object hash st (preprocess_text raw cfg)).1 cfg
          (store_object hash st (preprocess_text raw cfg)).2.head ts).2
        (create_commit hash (store_object hash st (preprocess_text raw cfg)).2
          (store_object hash st (preprocess_text raw cfg)).1 cfg
          (store_object hash st (preprocess_text raw cfg)).2.head ts).1 := rfl

lemma create_version_ret (st : VState) (raw : String) (cfg : Config) (ts : String) :
    (create_version hash st raw cfg ts).ret = none := rfl

lemma create_version_printed (st : VState) (raw : String) (cfg : Config) (ts : String) :
    (create_version hash st raw cfg ts).printed =
      ["New commit created:",
        (create_commit hash (store_object hash st (preprocess_text raw cfg)).2
          (store_object hash st (preprocess_text raw cfg)).1 cfg
          (store_object hash st (preprocess_text raw cfg)).2.head ts).1] := rfl

lemma create_version_head (st : VState) (raw : String) (cfg : Config) (ts : String) :
    (create_version hash st raw cfg ts).state.head =
      some (hash_content hash (dumpsCommit
        ⟨hash_content hash (preprocess_text raw cfg), st.head, ts, cfg⟩)) := by
  rw [create_version_state]
  show some _ = _
  rw [create_commit_fst, store_object_fst, store_object_head]

lemma create_version_commits (st : VState) (raw : String) (cfg : Config) (ts : String) :
    (create_version hash st raw cfg ts).state.commits =
      (create_commit hash (store_object hash st (preprocess_text raw cfg)).2
        (store_object hash st (preprocess_text raw cfg)).1 cfg st.head ts).2.commits := by
  rw [create_version_state, store_object_head]
  rfl

lemma create_version_objects (st : VState) (raw : String) (cfg : Config) (ts : String) :
    (create_version hash st raw cfg ts).state.objects =
      (store_object hash st (preprocess_text raw cfg)).2.objects := by
  rw [create_version_state]
  show (create_commit hash _ _ cfg _ ts).2.objects = _
  rw [create_commit_objects]

lemma NodupKeys_create_commit (st : VState) (oh : String) (cfg : Config)
    (p : Option String) (ts : String) (hnk : NodupKeys st) :
    NodupKeys (create_commit hash st oh cfg p ts).2 := by
  cases h : st.commits.lookup (hash_content hash (dumpsCommit ⟨oh, p, ts, cfg⟩)) with
  | some c0 => rw [create_commit_eq_of_some hash st oh cfg p ts c0 h]; exact hnk
  | none =>
    rw [create_commit_eq_of_none hash st oh cfg p ts h]
    have hmem := (lookup_eq_none_iff _ _).mp h
    exact List.Nodup.cons hmem hnk

lemma ParentsOlder_create_commit (st : VState) (oh : String) (cfg : Config)
    (p : Option String) (ts : String) (hpo : ParentsOlder st.commits)
    (hp : ∀ q, p = some q → q ∈ st.commits.map Prod.fst) :
    ParentsOlder (create_commit hash st oh cfg p ts).2.commits := by
  cases h : st.commits.lookup (hash_content hash (dumpsCommit ⟨oh, p, ts, cfg⟩)) with
  | some c0 => rw [create_commit_eq_of_some hash st oh cfg p ts c0 h]; exact hpo
  | none =>
    rw [create_commit_eq_of_none hash st oh cfg p ts h]
    exact ⟨hp, hpo⟩

lemma create_commit_fst_mem (st : VState) (oh : String) (cfg : Config)
    (p : Option String) (ts : String) :
    (create_commit hash st oh cfg p ts).1 ∈
      (create_commit hash st oh cfg p ts).2.commits.map Prod.fst := by
  cases h : st.commits.lookup (hash_content hash (dumpsCommit ⟨oh, p, ts, cfg⟩)) with
  | some c0 =>
    rw [create_commit_eq_of_some hash st oh cfg p ts c0 h]
    exact (lookup_isSome_iff _ _).mp (by rw [h]; rfl)
  | none =>
    rw [create_commit_eq_of_none hash st oh cfg p ts h]
    simp

lemma StoreOk_create_version (st : VState) (raw : String) (cfg : Config) (ts : String)
    (hso : StoreOk hash st) : StoreOk hash (create_version hash st raw cfg ts).state := by
  intro h c hl
  rw [create_version_objects] at hl
  exact StoreOk_store hash st _ hso _ _ hl

lemma CommitsOk_create_version (st : VState) (raw : String) (cfg : Config) (ts : String)
    (hco : CommitsOk hash st) : CommitsOk hash (create_version hash st raw cfg ts).state := by
  intro id c hl
  rw [create_version_commits] at hl
  have h1 : CommitsOk hash (store_object hash st (preprocess_text raw cfg)).2 :=
    CommitsOk_store_object hash st _ hco
  exact CommitsOk_create_commit hash _ _ cfg st.head ts h1 _ _ hl

lemma NodupKeys_create_version (st : VState) (raw : String) (cfg : Config) (ts : String)
    (hnk : NodupKeys st) : NodupKeys (create_version hash st raw cfg ts).state := by
  have h1 : NodupKeys (store_object hash st (preprocess_text raw cfg)).2 := by
    unfold NodupKeys
    rw [store_object_commits]
    exact hnk
  have h2 := NodupKeys_create_commit hash (store_object hash st (preprocess_text raw cfg)).2
    (store_object hash st (preprocess_text raw cfg)).1 cfg st.head ts h1
  unfold NodupKeys
  rw [create_version_commits]
  exact h2

lemma ParentsOlder_create_version (st : VState) (raw : String) (cfg : Config) (ts : String)
    (hpo : ParentsOlder st.commits) (hho : HeadOk st) :
    ParentsOlder (create_version hash st raw cfg ts).state.commits := by
  rw [create_version_commits]
  apply ParentsOlder_create_commit
  · rw [store_object_commits]; exact hpo
  · intro q hq
    rw [store_object_commits]
    exact hho q hq

lemma HeadOk_create_version (st : VState) (raw : String) (cfg : Config) (ts : String) :
    HeadOk (create_version hash st raw cfg ts).state := by
  intro h hh
  rw [create_version_state] at hh
  have : h = (create_commit hash (store_object hash st (preprocess_text raw cfg)).2
      (store_object hash st (preprocess_text raw cfg)).1 cfg
      (store_object hash st (preprocess_text raw cfg)).2.head ts).1 := by
    cases hh
    rfl
  subst this
  rw [create_version_commits, store_object_head]
  exact create_commit_fst_mem hash _ _ cfg st.head ts

/-- All invariants hold in every state reachable through the write path. -/
lemma reaches_invariants (st : VState) (hr : Reaches hash st) :
    StoreOk hash st ∧ CommitsOk hash st ∧ NodupKeys st ∧
      ParentsOlder st.commits ∧ HeadOk st := by
  induction hr with
  | init =>
    refine ⟨?_, ?_, ?_, ?_, ?_⟩
    · intro h c hl; cases hl
    · intro id c hl; cases hl
    · exact List.nodup_nil
    · trivial
    · intro h hl; cases hl
  | step st raw cfg ts _ ih =>
    obtain ⟨hso, hco, hnk, hpo, hho⟩ := ih
    exact ⟨StoreOk_create_version hash st raw cfg ts hso,
      CommitsOk_create_version hash st raw cfg ts hco,
      NodupKeys_create_version hash st raw cfg ts hnk,
      ParentsOlder_create_version hash st raw cfg ts hpo hho,
      HeadOk_create_version hash st raw cfg ts⟩

/-! ## Canonical sorting of configuration keys -/

instance : DecidableRel (fun a b : String × Bool => a.1 ≤ b.1) :=
  fun a b => inferInstanceAs (Decidable (a.1 ≤ b.1))

instance : IsTotal (String × Bool) (fun a b => a.1 ≤ b.1) :=
  ⟨fun a b => le_total a.1 b.1⟩

instance : IsTrans (String × Bool) (fun a b => a.1 ≤ b.1) :=
  ⟨fun _ _ _ h1 h2 => le_trans h1 h2⟩

instance : IsAntisymm (String × Bool) (fun a b : String × Bool => a.1 < b.1) :=
  ⟨fun _ _ h1 h2 => absurd (lt_trans h1 h2) (lt_irrefl _)⟩

lemma sortByKey_perm (cfg : Config) : (sortByKey cfg).Perm cfg :=
  List.perm_insertionSort _ _

lemma sortByKey_sorted (cfg : Config) :
    (sortByKey cfg).Sorted (fun a b : String × Bool => a.1 ≤ b.1) :=
  List.sorted_insertionSort _ _

lemma sorted_strict_of_nodup (l : Config)
    (hs : l.Sorted (fun a b : String × Bool => a.1 ≤ b.1))
    (hnd : (l.map Prod.fst).Nodup) :
    l.Sorted (fun a b : String × Bool => a.1 < b.1) := by
  have hnd' : l.Pairwise (fun a b : String × Bool => a.1 ≠ b.1) := List.pairwise_map.mp hnd
  exact (hs.and hnd').imp (fun h => lt_of_le_of_ne h.1 h.2)

/-- Key-order independence of the canonical form: two configurations that
are rearrangements of each other (with distinct keys) sort identically. -/
lemma sortByKey_eq_of_perm {cfg1 cfg2 : Config} (hp : cfg1.Perm cfg2)
    (hnd : (cfg1.map Prod.fst).Nodup) : sortByKey cfg1 = sortByKey cfg2 := by
  have hperm : (sortByKey cfg1).Perm (sortByKey cfg2) :=
    ((sortByKey_perm cfg1).trans hp).trans (sortByKey_perm cfg2).symm
  have hnd2 : (cfg2.map Prod.fst).Nodup := ((hp.map Prod.fst).nodup_iff).mp hnd
  have hnd1' : ((sortByKey cfg1).map Prod.fst).Nodup :=
    (((sortByKey_perm cfg1).map Prod.fst).nodup_iff).mpr hnd
  have hnd2' : ((sortByKey cfg2).map Prod.fst).Nodup :=
    (((sortByKey_perm cfg2).map Prod.fst).nodup_iff).mpr hnd2
  exact List.eq_of_perm_of_sorted hperm
    (sorted_strict_of_nodup _ (sortByKey_sorted cfg1) hnd1')
    (sorted_strict_of_nodup _ (sortByKey_sorted cfg2) hnd2')

/-- Equal canonical serializations follow from configs that sort equal. -/
lemma dumpsCommit_congr (oh : String) (p : Option String) (ts : String)
    {cfg1 cfg2 : Config} (hs : sortByKey cfg1 = sortByKey cfg2) :
    dumpsCommit ⟨oh, p, ts, cfg1⟩ = dumpsCommit ⟨oh, p, ts, cfg2⟩ := by
  unfold dumpsCommit commitChars configChars
  rw [hs]

/-! ## Termination and shape of the log walk -/

lemma show_log_walk_none (st : VState) (fuel : Nat) :
    show_log_walk st fuel none = some [] := by
  cases fuel <;> rfl

lemma show_log_walk_cons (st : VState) (f : Nat) (cid : String) (c : Commit)
    (h : load_commit st cid = some c) :
    show_log_walk st (f + 1) (some cid) =
      match show_log_walk st f c.parent with
      | some l => some ((cid, c) :: l)
      | none => none := by
  simp only [show_log_walk, h]

lemma lookup_append_of_not_mem {β : Type} (A rest : List (String × β)) (q : String)
    (h : q ∉ A.map Prod.fst) : (A ++ rest).lookup q = rest.lookup q := by
  induction A with
  | nil => rfl
  | cons p A ih =>
    obtain ⟨k, v⟩ := p
    simp only [List.map_cons, List.mem_cons, not_or] at h
    rw [List.cons_append, lookup_cons_ne _ _ _ _ h.1]
    exact ih h.2

lemma ParentsOlder_elim (A B : List (String × Commit)) (q : String) (c : Commit)
    (hpo : ParentsOlder (A ++ (q, c) :: B)) :
    ∀ p, c.parent = some p → p ∈ B.map Prod.fst := by
  induction A with
  | nil => exact hpo.1
  | cons x A ih =>
    obtain ⟨_, _⟩ := x
    exact ih hpo.2

lemma ParentsOlder_suffix (A B : List (String × Commit)) (hpo : ParentsOlder (A ++ B)) :
    ParentsOlder B := by
  induction A with
  | nil => exact hpo
  | cons x A ih =>
    obtain ⟨_, _⟩ := x
    exact ih hpo.2

lemma walk_ok_aux (st : VState) (hnk : NodupKeys st) (hpo : ParentsOlder st.commits) :
    ∀ (n : Nat) (tail : List (String × Commit)), tail.length ≤ n →
    tail.IsSuffix st.commits →
    ∀ (o : Option String), (∀ q, o = some q → q ∈ tail.map Prod.fst) →
    ∀ fuel, tail.length ≤ fuel →
    ∃ l, show_log_walk st fuel o = some l ∧ ChainFrom o l ∧
      (l.map Prod.fst).Nodup ∧ ∀ x ∈ l.map Prod.fst, x ∈ tail.map Prod.fst := by
  intro n
  induction n with
  | zero =>
    intro tail hlen _ o ho fuel _
    cases o with
    | none =>
      exact ⟨[], show_log_walk_none st fuel, rfl, List.nodup_nil, by intro x hx; cases hx⟩
    | some q =>
      have := ho q rfl
      rw [List.length_eq_zero.mp (Nat.le_zero.mp hlen)] at this
      cases this
  | succ n ih =>
    intro tail hlen hsuf o ho fuel hfuel
    cases o with
    | none =>
      exact ⟨[], show_log_walk_none st fuel, rfl, List.nodup_nil, by intro x hx; cases hx⟩
    | some q =>
      have hq : q ∈ tail.map Prod.fst := ho q rfl
      have hex : ∃ c, (q, c) ∈ tail := by
        obtain ⟨⟨q', c⟩, hpair, hfst⟩ := List.mem_map.mp hq
        exact ⟨c, by rwa [show q' = q from hfst] at hpair⟩
      obtain ⟨c, hpair⟩ := hex
      obtain ⟨t1, t2, hsplit⟩ := List.append_of_mem hpair
      obtain ⟨pre, hpre⟩ := hsuf
      have hfull : st.commits = (pre ++ t1) ++ (q, c) :: t2 := by
        rw [← hpre, hsplit]
        simp [List.append_assoc]
      have hndk : (st.commits.map Prod.fst).Nodup := hnk
      have hnd' : (((pre ++ t1) ++ (q, c) :: t2).map Prod.fst).Nodup := by
        rw [← hfull]; exact hndk
      have hqnotin : q ∉ ((pre ++ t1).map Prod.fst) ∧ q ∉ (t2.map Prod.fst) := by
        rw [List.map_append, List.map_cons] at hnd'
        obtain ⟨h1, h2, h3⟩ := List.nodup_append.mp hnd'
        refine ⟨fun hmem => h3 hmem (by simp), ?_⟩
        have h4 := List.nodup_cons.mp h2
        simpa using h4.1
      have hlook : st.commits.lookup q = some c := by
        rw [hfull, lookup_append_of_not_mem _ _ _ hqnotin.1, lookup_cons_self]
      have htail_len : 1 ≤ tail.length := by
        rw [hsplit]; simp only [List.length_append, List.length_cons]; omega
      obtain ⟨f, rfl⟩ : ∃ f, fuel = f + 1 := ⟨fuel - 1, by omega⟩
      have hparent : ∀ p, c.parent = some p → p ∈ t2.map Prod.fst := by
        apply ParentsOlder_elim (pre ++ t1) t2 q c
        rw [← hfull]; exact hpo
      have ht2suf : t2.IsSuffix st.commits := by
        refine ⟨(pre ++ t1) ++ [(q, c)], ?_⟩
        rw [hfull]; simp
      have ht2len : t2.length ≤ n := by
        rw [hsplit] at hlen
        simp only [List.length_append, List.length_cons] at hlen
        omega
      have ht2fuel : t2.length ≤ f := by
        rw [hsplit] at hfuel
        simp only [List.length_append, List.length_cons] at hfuel
        omega
      obtain ⟨l', hwalk, hchain, hnodup, hmems⟩ :=
        ih t2 ht2len ht2suf c.parent hparent f ht2fuel
      refine ⟨(q, c) :: l', ?_, ⟨rfl, hchain⟩, ?_, ?_⟩
      · rw [show_log_walk_cons st f q c hlook, hwalk]
      · rw [List.map_cons]
        exact List.Nodup.cons (fun hmem => hqnotin.2 (hmems q hmem)) hnodup
      · intro x hx
        rw [List.map_cons, List.mem_cons] at hx
        rcases hx with hx | hx
        · subst hx; exact hq
        · have hx2 := hmems x hx
          rw [hsplit]
          simp only [List.map_append, List.map_cons, List.mem_append, List.mem_cons]
          right; right
          simpa using hx2

/-! ## Equivalence of the two dedup formulations (claim C6) -/

lemma dedupKeep_foldl (l : List String) : ∀ (acc seen : List String),
    (∀ x, x ∈ acc ↔ x ∈ seen) →
    l.foldl (fun acc x => if x ∈ acc then acc else acc ++ [x]) acc =
      acc ++ dedupKeep seen l := by
  induction l with
  | nil => intro acc seen _; simp [dedupKeep]
  | cons x xs ih =>
    intro acc seen hmem
    by_cases hx : x ∈ seen
    · rw [List.foldl_cons, if_pos ((hmem x).mpr hx)]
      rw [dedupKeep, if_pos hx]
      exact ih acc seen hmem
    · rw [List.foldl_cons, if_neg (fun hc => hx ((hmem x).mp hc))]
      rw [dedupKeep, if_neg hx]
      rw [ih (acc ++ [x]) (x :: seen) (by intro y; simp [hmem y, or_comm])]
      simp [List.append_assoc]

lemma dedupFirst_foldl (l : List String) :
    l.foldl (fun acc x => if x ∈ acc then acc else acc ++ [x]) [] = dedupFirst l := by
  have := dedupKeep_foldl l [] [] (by intro x; simp)
  simpa [dedupFirst] using this

lemma filter_punct_eq (l : List Char) :
    l.filter (fun c => !(!isWordChar c && !isSpaceChar c)) =
      l.filter (fun c => isWordChar c || isSpaceChar c) := by
  apply List.filter_congr
  intro c _
  cases h1 : isWordChar c <;> cases h2 : isSpaceChar c <;> rfl

/-- The code's pipeline coincides with the spec-side description. -/
lemma preprocess_eq_transform_spec (text : String) (config : Config) :
    preprocess_text text config = transform_spec text config := by
  unfold preprocess_text transform_spec lowerString removePunct
  simp only [filter_punct_eq, dedupFirst_foldl]

lemma create_version_head_raw (st : VState) (raw : String) (cfg : Config) (ts : String) :
    (create_version hash st raw cfg ts).state.head =
      some ((create_commit hash (store_object hash st (preprocess_text raw cfg)).2
        (store_object hash st (preprocess_text raw cfg)).1 cfg
        (store_object hash st (preprocess_text raw cfg)).2.head ts).1) := by
  rw [create_version_state]
  rfl

lemma create_version_commits_raw (st : VState) (raw : String) (cfg : Config) (ts : String) :
    (create_version hash st raw cfg ts).state.commits =
      (create_commit hash (store_object hash st (preprocess_text raw cfg)).2
        (store_object hash st (preprocess_text raw cfg)).1 cfg
        (store_object hash st (preprocess_text raw cfg)).2.head ts).2.commits := by
  rw [create_version_state]
  rfl

/-! ## The claims -/

/-- C1: for every raw input and configuration, checking out the commit
produced by `create_version` (the one HEAD points to) writes content
byte-identical to the preprocessed text: the stored object retrieved via
checkout equals `preprocess_text raw cfg` (`load_object` after
`store_object` is the identity on stored content). Stated over any state
satisfying the reachable-state invariants, for an injective (collision-free)
hash. -/
theorem c1_roundtrip (hash : String → String) (hinj : Function.Injective hash)
    (st : VState) (hso : StoreOk hash st) (hco : CommitsOk hash st)
    (raw : String) (cfg : Config) (ts : String) (dest : Option String) :
    ∃ cid, (create_version hash st raw cfg ts).state.head = some cid ∧
      checkout (create_version hash st raw cfg ts).state cid dest =
        (Except.ok Unit.unit, some (preprocess_text raw cfg)) := by
  have hco1 : CommitsOk hash (store_object hash st (preprocess_text raw cfg)).2 :=
    CommitsOk_store_object hash st _ hco
  obtain ⟨c', hlook, hoh, hp, hts, hcfg⟩ := create_commit_lookup_fields hash
    (store_object hash st (preprocess_text raw cfg)).2
    (store_object hash st (preprocess_text raw cfg)).1 cfg
    (store_object hash st (preprocess_text raw cfg)).2.head ts hinj hco1
  refine ⟨_, create_version_head_raw hash st raw cfg ts, ?_⟩
  have h1 : load_commit (create_version hash st raw cfg ts).state
      (create_commit hash (store_object hash st (preprocess_text raw cfg)).2
        (store_object hash st (preprocess_text raw cfg)).1 cfg
        (store_object hash st (preprocess_text raw cfg)).2.head ts).1 = some c' := by
    unfold load_commit
    rw [create_version_commits_raw]
    exact hlook
  have h2 : load_object (create_version hash st raw cfg ts).state c'.object_hash =
      some (preprocess_text raw cfg) := by
    unfold load_object
    rw [create_version_objects, hoh, store_object_fst]
    exact store_object_lookup_self hash st _ hinj hso
  simp only [checkout, h1, h2]

/-- C2: storing the same content twice returns the same hash both times,
and the second call leaves the store (objects, commits and HEAD) entirely
unchanged: the payload is persisted only once per distinct content value. -/
theorem c2_store_idempotent (hash : String → String) (st : VState) (content : String) :
    (store_object hash (store_object hash st content).2 content).1 =
      (store_object hash st content).1 ∧
    (store_object hash (store_object hash st content).2 content).2 =
      (store_object hash st content).2 := by
  cases hl : st.objects.lookup (hash_content hash content) with
  | some c0 =>
    rw [store_object_eq_of_some hash st content c0 hl]
    rw [store_object_eq_of_some hash st content c0 hl]
    exact ⟨rfl, rfl⟩
  | none =>
    rw [store_object_eq_of_none hash st content hl]
    rw [store_object_eq_of_some hash _ content content (lookup_cons_self _ _ _)]
    exact ⟨rfl, rfl⟩

/-- C3: the commit id is a deterministic, canonical function of the four
fields: (a) it does not depend on the store state, so two invocations with
identical arguments (and timestamps) agree; (b) it is independent of the
order in which distinct config keys were supplied (sorted canonical
serialization); (c) for an injective (collision-free) hash, equal ids force
equal `object_hash`, `parent` and `timestamp` and configs equal as key-value
collections — so invocations differing in config or in parent yield
different ids. -/
theorem c3_commit_id_canonical (hash : String → String) :
    (∀ (st1 st2 : VState) (oh : String) (p : Option String) (ts : String) (cfg : Config),
      (create_commit hash st1 oh cfg p ts).1 = (create_commit hash st2 oh cfg p ts).1) ∧
    (∀ (st1 st2 : VState) (oh : String) (p : Option String) (ts : String)
        (cfg1 cfg2 : Config), cfg1.Perm cfg2 → (cfg1.map Prod.fst).Nodup →
      (create_commit hash st1 oh cfg1 p ts).1 = (create_commit hash st2 oh cfg2 p ts).1) ∧
    (Function.Injective hash →
      ∀ (st1 st2 : VState) (oh1 oh2 : String) (p1 p2 : Option String) (ts1 ts2 : String)
        (cfg1 cfg2 : Config),
      (create_commit hash st1 oh1 cfg1 p1 ts1).1 = (create_commit hash st2 oh2 cfg2 p2 ts2).1 →
      oh1 = oh2 ∧ p1 = p2 ∧ ts1 = ts2 ∧ cfg1.Perm cfg2) := by
  refine ⟨?_, ?_, ?_⟩
  · intro st1 st2 oh p ts cfg
    rw [create_commit_fst, create_commit_fst]
  · intro st1 st2 oh p ts cfg1 cfg2 hperm hnd
    rw [create_commit_fst, create_commit_fst]
    exact congrArg (hash_content hash)
      (dumpsCommit_congr oh p ts (sortByKey_eq_of_perm hperm hnd))
  · intro hinj st1 st2 oh1 oh2 p1 p2 ts1 ts2 cfg1 cfg2 h
    rw [create_commit_fst, create_commit_fst] at h
    have hd : dumpsCommit ⟨oh1, p1, ts1, cfg1⟩ = dumpsCommit ⟨oh2, p2, ts2, cfg2⟩ := hinj h
    have hf := dumpsCommit_fields hd
    refine ⟨hf.1, hf.2.1, hf.2.2.1, ?_⟩
    have hs := hf.2.2.2
    have hp1 := (sortByKey_perm cfg1).symm
    rw [hs] at hp1
    exact hp1.trans (sortByKey_perm cfg2)

/-- C4 counterexample: at a concrete input, `create_version` creates a
commit (HEAD becomes set) yet its Python return value is `None`, not the
commit id — the function body has no `return` statement. -/
theorem c4_counterexample :
    (create_version (fun s => s) initState "a" [] "t").ret = none ∧
    (create_version (fun s => s) initState "a" [] "t").state.head.isSome = true :=
  ⟨rfl, rfl⟩

/-- C4 amended: `create_version` returns `None`; it reports the id of the
newly created commit by printing it (the second printed line equals the new
HEAD), rather than returning it to the caller. -/
theorem c4_amended (hash : String → String) (st : VState) (raw : String)
    (cfg : Config) (ts : String) :
    (create_version hash st raw cfg ts).ret = none ∧
    ∃ cid, (create_version hash st raw cfg ts).state.head = some cid ∧
      (create_version hash st raw cfg ts).printed = ["New commit created:", cid] := by
  refine ⟨rfl, _, create_version_head_raw hash st raw cfg ts, ?_⟩
  rw [create_version_printed]

/-- C5: after two sequential `create_version` calls, the second commit's
`parent` field equals the first commit's id, and HEAD equals the second
commit's id (each call reads the current HEAD as parent and then advances
HEAD), assuming an injective hash and a consistent commit store. -/
theorem c5_parent_linkage (hash : String → String) (hinj : Function.Injective hash)
    (st : VState) (hco : CommitsOk hash st)
    (raw1 : String) (cfg1 : Config) (ts1 : String)
    (raw2 : String) (cfg2 : Config) (ts2 : String) :
    ∃ id1 id2 c2,
      (create_version hash st raw1 cfg1 ts1).state.head = some id1 ∧
      (create_version hash (create_version hash st raw1 cfg1 ts1).state
        raw2 cfg2 ts2).state.head = some id2 ∧
      (create_version hash (create_version hash st raw1 cfg1 ts1).state
        raw2 cfg2 ts2).state.commits.lookup id2 = some c2 ∧
      c2.parent = some id1 := by
  have hco1 : CommitsOk hash (create_version hash st raw1 cfg1 ts1).state :=
    CommitsOk_create_version hash st raw1 cfg1 ts1 hco
  have hco2 : CommitsOk hash (store_object hash (create_version hash st raw1 cfg1 ts1).state
      (preprocess_text raw2 cfg2)).2 :=
    CommitsOk_store_object hash _ _ hco1
  obtain ⟨c2, hlook, hoh2, hp2, hts2, hcfg2⟩ := create_commit_lookup_fields hash
    (store_object hash (create_version hash st raw1 cfg1 ts1).state
      (preprocess_text raw2 cfg2)).2
    (store_object hash (create_version hash st raw1 cfg1 ts1).state
      (preprocess_text raw2 cfg2)).1 cfg2
    (store_object hash (create_version hash st raw1 cfg1 ts1).state
      (preprocess_text raw2 cfg2)).2.head ts2 hinj hco2
  refine ⟨_, _, c2, create_version_head_raw hash st raw1 cfg1 ts1,
    create_version_head_raw hash _ raw2 cfg2 ts2, ?_, ?_⟩
  · rw [create_version_commits_raw]
    exact hlook
  · rw [hp2, store_object_head]
    exact create_version_head_raw hash st raw1 cfg1 ts1

/-- C6: `preprocess_text` realizes the spec's pipeline: (a) it equals the
spec-side `transform_spec` (case-fold if `lowercase`; strip characters that
are neither word characters nor whitespace if `remove_punctuation`; split
into lines; keep first occurrences only if `remove_duplicates`; rejoin with
a single newline); (b) its output depends only on the three recognized
options, so unrecognized keys are ignored; (c) with an empty configuration
(all keys missing) every option is disabled. -/
theorem c6_transform_pipeline :
    (∀ (text : String) (cfg : Config), preprocess_text text cfg = transform_spec text cfg) ∧
    (∀ (text : String) (cfg1 cfg2 : Config),
      getOpt cfg1 "lowercase" = getOpt cfg2 "lowercase" →
      getOpt cfg1 "remove_punctuation" = getOpt cfg2 "remove_punctuation" →
      getOpt cfg1 "remove_duplicates" = getOpt cfg2 "remove_duplicates" →
      preprocess_text text cfg1 = preprocess_text text cfg2) ∧
    (∀ text : String,
      preprocess_text text [] = String.intercalate "\n" (splitlines text)) := by
  refine ⟨preprocess_eq_transform_spec, ?_, ?_⟩
  · intro text cfg1 cfg2 h1 h2 h3
    unfold preprocess_text
    rw [h1, h2, h3]
  · intro text
    rfl

/-- C6 witness: a configuration with only an unrecognized key behaves like
the empty configuration on a concrete input. -/
theorem c6_transform_pipeline_witness :
    preprocess_text "A b" [("unknown", true)] = preprocess_text "A b" [] :=
  c6_transform_pipeline.2.1 "A b" [("unknown", true)] [] rfl rfl rfl

/-- C7: on `"Hello, World!\nhello, world!\n"` with all three options
enabled, the result is exactly `"hello world"`: one line, punctuation
stripped, duplicate collapsed. -/
theorem c7_concrete :
    preprocess_text "Hello, World!\nhello, world!\n"
      [("lowercase", true), ("remove_punctuation", true), ("remove_duplicates", true)] =
      "hello world" := by
  decide

/-- C8: `checkout` with a commit id that has no entry in the commit store
(as for any id never produced by `create_commit`) fails with `NotFound` and
leaves the destination untouched; the same holds when the commit exists but
its object is missing — the write happens only after both lookups succeed. -/
theorem c8_checkout_notfound (st : VState) (cid : String) (dest : Option String) :
    (st.commits.lookup cid = none →
      checkout st cid dest = (Except.error VError.notFound, dest)) ∧
    (∀ c, st.commits.lookup cid = some c → st.objects.lookup c.object_hash = none →
      checkout st cid dest = (Except.error VError.notFound, dest)) := by
  constructor
  · intro h
    simp only [checkout, load_commit, h]
  · intro c h1 h2
    simp only [checkout, load_commit, load_object, h1, h2]

/-- C8 witness: checking out an unknown id in the empty repository fails
with `NotFound` and writes nothing. -/
theorem c8_checkout_notfound_witness :
    checkout initState "deadbeef" none = (Except.error VError.notFound, none) :=
  (c8_checkout_notfound initState "deadbeef" none).1 rfl

/-- C9: in every state reachable through the write path, the log walk from
HEAD terminates within as many steps as there are stored commits, visits
pairwise-distinct commits (each ancestor exactly once), follows the chain
most-recent-first from HEAD, and ends at a commit whose parent is absent. -/
theorem c9_log_walk (hash : String → String) (st : VState) (hr : Reaches hash st) :
    ∃ l, show_log_walk st st.commits.length st.head = some l ∧
      ChainFrom st.head l ∧ (l.map Prod.fst).Nodup := by
  obtain ⟨_, _, hnk, hpo, hho⟩ := reaches_invariants hash st hr
  obtain ⟨l, h1, h2, h3, _⟩ := walk_ok_aux st hnk hpo st.commits.length st.commits
    le_rfl ⟨[], rfl⟩ st.head (fun q hq => hho q hq) st.commits.length le_rfl
  exact ⟨l, h1, h2, h3⟩

/-- C9 witness: the walk on the freshly initialized repository. -/
theorem c9_log_walk_witness :
    ∃ l, show_log_walk initState initState.commits.length initState.head = some l ∧
      ChainFrom initState.head l ∧ (l.map Prod.fst).Nodup :=
  c9_log_walk (fun s => s) initState Reaches.init

/-- C10: with all three recognized options disabled or absent, the transform
is split-lines-then-rejoin with a single newline — not the identity: a
trailing newline is dropped and a CRLF separator becomes a bare newline. -/
theorem c10_disabled_options :
    (∀ (text : String) (cfg : Config),
      getOpt cfg "lowercase" = false →
      getOpt cfg "remove_punctuation" = false →
      getOpt cfg "remove_duplicates" = false →
      preprocess_text text cfg = String.intercalate "\n" (splitlines text)) ∧
    preprocess_text "a\n" [] = "a" ∧
    preprocess_text "a\n" [] ≠ "a\n" ∧
    preprocess_text "a\r\nb" [] = "a\nb" := by
  refine ⟨?_, by decide, by decide, by decide⟩
  intro text cfg h1 h2 h3
  unfold preprocess_text
  rw [h1, h2, h3]
  simp

/-- C10 witness: the disabled-options equation applied at a concrete input
and configuration. -/
theorem c10_disabled_options_witness :
    preprocess_text "x" [("remove_duplicates", false)] =
      String.intercalate "\n" (splitlines "x") :=
  c10_disabled_options.1 "x" [("remove_duplicates", false)] rfl rfl rfl

/-- C1 witness: the round trip at a concrete input in the empty repository
with the identity as the (injective) hash. -/
theorem c1_roundtrip_witness :
    ∃ cid, (create_version (fun s => s) initState "Hello" [] "t0").state.head = some cid ∧
      checkout (create_version (fun s => s) initState "Hello" [] "t0").state cid none =
        (Except.ok Unit.unit, some (preprocess_text "Hello" [])) :=
  c1_roundtrip (fun s => s) (fun _ _ h => h) initState
    (by intro h c hl; cases hl) (by intro id c hl; cases hl) "Hello" [] "t0" none

/-- C3 witness: key order does not change the id at a concrete config, and
the distinctness direction applied at concrete equal invocations. -/
theorem c3_commit_id_canonical_witness :
    (create_commit (fun s => s) initState "h" [("a", true), ("b", false)] none "t").1 =
      (create_commit (fun s => s) initState "h" [("b", false), ("a", true)] none "t").1 ∧
    ("h1" = "h1" ∧ (none : Option String) = none ∧ "t" = "t" ∧
      ([("a", true)] : Config).Perm [("a", true)]) :=
  ⟨(c3_commit_id_canonical (fun s => s)).2.1 initState initState "h" none "t"
      [("a", true), ("b", false)] [("b", false), ("a", true)]
      (List.Perm.swap _ _ _) (by decide),
    (c3_commit_id_canonical (fun s => s)).2.2 (fun _ _ h => h) initState initState
      "h1" "h1" none none "t" "t" [("a", true)] [("a", true)] rfl⟩

/-- C5 witness: two concrete sequential calls on the empty repository. -/
theorem c5_parent_linkage_witness :
    ∃ id1 id2 c2,
      (create_version (fun s => s) initState "a" [] "t1").state.head = some id1 ∧
      (create_version (fun s => s) (create_version (fun s => s) initState "a" [] "t1").state
        "b" [] "t2").state.head = some id2 ∧
      (create_version (fun s => s) (create_version (fun s => s) initState "a" [] "t1").state
        "b" [] "t2").state.commits.lookup id2 = some c2 ∧
      c2.parent = some id1 :=
  c5_parent_linkage (fun s => s) (fun _ _ h => h) initState
    (by intro id c hl; cases hl) "a" [] "t1" "b" [] "t2"
